import Mathlib

/-!
Verification development for the C-Data-Structures repository.

The core program is `src/hash_table.c`: a hash table of `TABLE_SIZE = 5`
buckets, each bucket a sentinel-headed doubly-linked list of heap-allocated
C strings.  We give a shallow embedding:

* C strings are modelled as `List Nat` of their byte values (a C string
  cannot contain the NUL byte, and `strcmp`-equality on such strings is
  exactly list equality of the byte sequences; bytes are modelled with
  their unsigned values).
* A bucket list is modelled by the sequence of node values reachable from
  its first node: the sentinel head value followed by the user values
  (`LState`).  Node identity is position in that sequence, which is what
  `find_entry` returns and `remove_entry` consumes at the call sites in
  `main`.
* The pointer-level structure of `insert_entry` / `remove_entry`
  (prev/next splicing, allocation and release) is modelled separately by
  an explicit heap `Nat → Option HNode` further below.
* The trie of `src/trie.c` is modelled by an inductive `Trie`.
-/

/-- A C string: the list of its (unsigned) byte values, NUL exclusive. -/
abbrev Str := List Nat

/-- Bytes of `char *SENTINEL = "SENTINEL";` (src/hash_table.c line 27). -/
def SENTINEL : Str := [83, 69, 78, 84, 73, 78, 69, 76]

/-- Constant TABLE_SIZE = 5 of src/hash_table.c line 24. -/
def TABLE_SIZE : Nat := 5

/-- Modulus of the C type `unsigned long` (64-bit on the reference platform). -/
def UMAX : Nat := 18446744073709551616

/-- One iteration of the loop body of `hash` (src/hash_table.c line 194):
`hash = ((hash << 5) + hash) + c;` with every `unsigned long` operation
wrapping modulo `2^64`. -/
def hashStep (h c : Nat) : Nat := (((h <<< 5) % UMAX + h) % UMAX + c) % UMAX

/-- The accumulator loop of `hash` (src/hash_table.c lines 190-194),
starting from `unsigned long hash = 5381;` and consuming the bytes of the
key in order. -/
def hashLoop : Nat → List Nat → Nat
  | h, [] => h
  | h, c :: cs => hashLoop (hashStep h c) cs

/-- Function `hash` (src/hash_table.c lines 188-197): the djb2-style accumulator
reduced modulo `TABLE_SIZE`.  (Namespaced because the bare name collides
with the library's `Hashable.hash`.) -/
def HashTable.hash (str : Str) : Nat := hashLoop 5381 str % TABLE_SIZE

/-- Reference definition written from the spec's words (spec.md section 4.2):
accumulator seeded at 5381, updated as `accumulator*33 + c` wrapping in a
64-bit unsigned integer.  Used only to compare against `hash`. -/
def hashStepRef (h c : Nat) : Nat := (h * 33 + c) % UMAX

/-- Reference hash from the spec: fold of `hashStepRef`, reduced mod the
table size 5. -/
def hashRef (str : Str) : Nat := (str.foldl hashStepRef 5381) % TABLE_SIZE

/-- The bucket index of a key: `hash` always lands below `TABLE_SIZE`. -/
def hashIdx (k : Str) : Fin TABLE_SIZE :=
  ⟨HashTable.hash k, Nat.mod_lt _ (by decide)⟩

/-- State of one sentinel-headed bucket list: the value stored in the first
node (`head`, the sentinel node created by `create_list`, src/hash_table.c
lines 46-57) followed by the values of the remaining nodes in `next` order. -/
structure LState where
  head : Str
  tail : List Str
deriving DecidableEq, Repr

/-- The sequence of node values of a bucket, first node first. -/
def LState.vals (l : LState) : List Str := l.head :: l.tail

/-- Function `insert_entry` (src/hash_table.c lines 64-92): refuse the sentinel
marker, otherwise link a node holding a copy of `value` directly after the
list head.  Returns the new list state and the C function's boolean result. -/
def insert_entry (l : LState) (value : Str) : LState × Bool :=
  if value = SENTINEL then (l, false)
  else (⟨l.head, value :: l.tail⟩, true)

/-- The scanning loop of `find_entry` (src/hash_table.c lines 105-114):
index of the first node whose value is `strcmp`-equal to `value`. -/
def scan (value : Str) : List Str → Option Nat
  | [] => none
  | x :: xs => if x = value then some 0 else (scan value xs).map (· + 1)

/-- Function `find_entry` (src/hash_table.c lines 97-115): refuse the sentinel
marker, otherwise return the first node (as its position in the list)
whose value equals `value`, or `none`. -/
def find_entry (l : LState) (value : Str) : Option Nat :=
  if value = SENTINEL then none else scan value l.vals

/-- The value stored in the node at position `j` of a bucket. -/
def valueAt (l : LState) (j : Nat) : Str := l.vals.getD j SENTINEL

/-- Function `remove_entry` (src/hash_table.c lines 119-141) on the node at
position `j`: refuse a node holding the sentinel marker, otherwise splice
the node out.  A position `0` with a non-sentinel head would dereference
the null `prev` pointer in C (outside the function's defined domain, never
reached through `find_entry` on a table bucket) and is modelled as a
failure, as is an out-of-range position (a dangling node handle). -/
def remove_entry (l : LState) (j : Nat) : LState × Bool :=
  if l.vals.getD j SENTINEL = SENTINEL then (l, false)
  else
    match j with
    | 0 => (l, false)
    | j' + 1 => (⟨l.head, l.tail.eraseIdx j'⟩, true)

/-- The hash table: one bucket list per index (`struct node *table[TABLE_SIZE]`,
src/hash_table.c line 201). -/
abbrev Table := Fin TABLE_SIZE → LState

/-- The table right after the `create_list` loop of `main`
(src/hash_table.c lines 202-210): every bucket is a lone sentinel node. -/
def initTable : Table := fun _ => ⟨SENTINEL, []⟩

/-- Table-level insertion as performed by `main` (src/hash_table.c lines
216-217): hash the key and insert into that bucket. -/
def tableInsert (t : Table) (k : Str) : Table × Bool :=
  let r := insert_entry (t (hashIdx k)) k
  (Function.update t (hashIdx k) r.1, r.2)

/-- Table-level find as performed by `main` (src/hash_table.c line 231):
hash the key and scan that bucket. -/
def tableFind (t : Table) (k : Str) : Option Nat :=
  find_entry (t (hashIdx k)) k

/-- Table-level removal as performed by `main` (src/hash_table.c lines
230-239): find the key's node in its hash bucket, remove it when found,
report failure otherwise. -/
def tableRemove (t : Table) (k : Str) : Table × Bool :=
  match find_entry (t (hashIdx k)) k with
  | none => (t, false)
  | some j =>
    let r := remove_entry (t (hashIdx k)) j
    (Function.update t (hashIdx k) r.1, r.2)

/-- Folding a whole sequence of table-level insertions from the fresh table. -/
def insertSeq (ks : List Str) : Table :=
  ks.foldl (fun t k => (tableInsert t k).1) initTable

/-- Tables reachable from creation by the operations of `main`:
`insert_entry` and the find-then-`remove_entry` removal flow.  `find_entry`
and `print_list` do not mutate the structure. -/
inductive Reach : Table → Prop where
  | init : Reach initTable
  | insert (t : Table) (k : Str) : Reach t → Reach (tableInsert t k).1
  | remove (t : Table) (k : Str) : Reach t → Reach (tableRemove t k).1

/-!
Pointer-level model of the doubly-linked list of src/hash_table.c, used for
the claims about the link structure itself.  Node addresses are naturals, a
heap assigns each allocated address a node.
-/

/-- Type `struct node` (src/hash_table.c lines 29-34): an owned string value and
the `prev` / `next` pointers (`none` models the null pointer). -/
structure HNode where
  value : Str
  prev : Option Nat
  next : Option Nat
deriving DecidableEq, Repr

/-- A heap of list nodes: `none` at unallocated addresses. -/
abbrev Heap := Nat → Option HNode

/-- Function `insert_entry` (src/hash_table.c lines 64-92) on the node heap.
`fresh` is the address returned by `malloc` for the new node.  The three
mutations happen in the source's order: the new node is written with
`{new_string, list_head, list_head->next}` (line 81), then the displaced
successor's `prev` pointer is redirected when a successor exists (lines
86-87), then `list_head->next` is pointed at the new node (line 89).
Calling the function with an unallocated `list_head` would dereference an
invalid pointer in C; that case is outside the defined domain and modelled
as a failure. -/
def insert_entry_heap (h : Heap) (list_head fresh : Nat) (value : Str) : Heap × Bool :=
  if value = SENTINEL then (h, false)
  else
    match h list_head with
    | none => (h, false)
    | some hd =>
      let h1 : Heap := fun a => if a = fresh then some ⟨value, some list_head, hd.next⟩ else h a
      let h2 : Heap :=
        match hd.next with
        | none => h1
        | some nx =>
          fun a => if a = nx then (h1 nx).map (fun nd => ⟨nd.value, some fresh, nd.next⟩) else h1 a
      let h3 : Heap :=
        fun a => if a = list_head then (h2 list_head).map (fun nd => ⟨nd.value, nd.prev, some fresh⟩) else h2 a
      (h3, true)

/-- The value sequence read by following `next` pointers from `p`, with
enough `fuel`; it stops at a null pointer or an unallocated address. -/
def traverse (h : Heap) : Nat → Option Nat → List Str
  | 0, _ => []
  | _ + 1, none => []
  | fuel + 1, some a =>
    match h a with
    | none => []
    | some nd => nd.value :: traverse h fuel nd.next

/-- The addresses visited by `traverse` (the final unallocated address, if
the chain dangles, included). -/
def addrSeq (h : Heap) : Nat → Option Nat → List Nat
  | 0, _ => []
  | _ + 1, none => []
  | fuel + 1, some a =>
    match h a with
    | none => [a]
    | some nd => a :: addrSeq h fuel nd.next

/-- The part of a node `traverse` reads: its value and its `next` pointer. -/
def view (o : Option HNode) : Option (Str × Option Nat) :=
  o.map (fun nd => (nd.value, nd.next))

/-!
Pointer-level model of `remove_entry` of src/doubly-linked-list.c, whose
nodes hold `int` values.  The third component of the result is the list of
heap addresses actually released by `free` during the call (`free(NULL)`
releases nothing).
-/

/-- Type `struct node` of src/doubly-linked-list.c (lines 20-25). -/
structure DNode where
  value : Int
  prev : Option Nat
  next : Option Nat
deriving DecidableEq, Repr

/-- A heap of int-list nodes. -/
abbrev DHeap := Nat → Option DNode

/-- Value of `const int SENTINEL = INT_MAX;` (src/doubly-linked-list.c line 18). -/
def SENTINEL_INT : Int := 2147483647

/-- Function `remove_entry` (src/doubly-linked-list.c lines 108-127): refuse the
sentinel node; otherwise splice `entry`'s predecessor and successor
together, then execute `entry = NULL; free(entry);` (lines 123-124) — the
local pointer is nulled before the call, so `free` receives the null
pointer and releases nothing; the node stays allocated.  A dangling
`entry` or a null `entry->prev` would be undefined behaviour in C and is
outside the modelled domain. -/
def remove_entry_dll (h : DHeap) (entry : Nat) : DHeap × Bool × List Nat :=
  match h entry with
  | none => (h, false, [])
  | some nd =>
    if nd.value = SENTINEL_INT then (h, false, [])
    else
      match nd.prev with
      | none => (h, false, [])
      | some p =>
        let h1 : DHeap := fun a => if a = p then (h p).map (fun pn => ⟨pn.value, pn.prev, nd.next⟩) else h a
        let h2 : DHeap :=
          match nd.next with
          | none => h1
          | some nx =>
            fun a => if a = nx then (h1 nx).map (fun xn => ⟨xn.value, some p, xn.next⟩) else h1 a
        (h2, true, [])

/-- A two-node heap for exercising `remove_entry_dll`: the sentinel node at
address 0, a node holding `5` at address 1. -/
def exDHeap : DHeap := fun a =>
  if a = 0 then some ⟨SENTINEL_INT, none, some 1⟩
  else if a = 1 then some ⟨5, some 0, none⟩
  else none

/-- A one-node heap (just a sentinel at address 0) for exercising
`insert_entry_heap`. -/
def exHeap : Heap := fun a => if a = 0 then some ⟨SENTINEL, none, none⟩ else none

/-!
Model of src/trie.c.  `struct trie` holds a data flag and an array of 26
child pointers; the array is modelled as a total function on `Nat` (the C
code only ever indexes it with results of `get_alphabetical_index`, which
lie in `0..25`).  Strings are byte lists as above.
-/

/-- Type `struct trie` (src/trie.c lines 18-22). -/
inductive Trie where
  | node (d : Bool) (paths : Nat → Option Trie)

/-- The data flag field of a trie node. -/
def Trie.dataFlag : Trie → Bool
  | .node d _ => d

/-- The `paths` array. -/
def Trie.paths : Trie → Nat → Option Trie
  | .node _ p => p

/-- Function `create_trie` (src/trie.c lines 26-41): data flag false, all 26 child
pointers null (allocation never fails in the model). -/
def create_trie : Trie := .node false (fun _ => none)

/-- Predicate isalpha of ctype.h in the C locale, on an unsigned byte value. -/
def isAlphaByte (c : Nat) : Bool := (65 ≤ c && c ≤ 90) || (97 ≤ c && c ≤ 122)

/-- Predicate isupper of ctype.h in the C locale. -/
def isUpperByte (c : Nat) : Bool := 65 ≤ c && c ≤ 90

/-- Function tolower applied when isupper holds (src/trie.c lines 50-51): the
byte shifted into the lowercase range. -/
def lowerByte (c : Nat) : Nat := if isUpperByte c then c + 32 else c

/-- Lowercasing a whole string byte by byte. -/
def lowerStr (s : Str) : Str := s.map lowerByte

/-- Function `get_alphabetical_index` (src/trie.c lines 46-57): for an alphabetic
character, lowercase it and reduce modulo `'a' = 97`, giving `0..25`;
otherwise `-1`. -/
def get_alphabetical_index (c : Nat) : Int :=
  if isAlphaByte c then ((lowerByte c % 97 : Nat) : Int) else -1

/-- Function `insert_entry` (src/trie.c lines 63-90): walk the string character by
character, creating missing child tries, and set the data flag at the end;
fail (leaving any freshly created children in place, as the C code does)
on the first non-alphabetic character. -/
def Trie.insert_entry : Trie → List Nat → Trie × Bool
  | t, [] => (.node true t.paths, true)
  | t, c :: rest =>
    let index := get_alphabetical_index c
    if index < 0 then (t, false)
    else
      let sub :=
        match t.paths index.toNat with
        | none => create_trie
        | some s => s
      let r := Trie.insert_entry sub rest
      (.node t.dataFlag (Function.update t.paths index.toNat (some r.1)), r.2)

/-- Function `find_entry` (src/trie.c lines 97-123): follow the child pointers of
the string's characters; succeed exactly when the final trie's data flag is
set; fail on a non-alphabetic character or a missing child. -/
def Trie.find_entry : Trie → List Nat → Option Trie
  | t, [] => if t.dataFlag then some t else none
  | t, c :: rest =>
    let index := get_alphabetical_index c
    if index < 0 then none
    else
      match t.paths index.toNat with
      | none => none
      | some sub => Trie.find_entry sub rest

/-- The key "dup" of the spec's duplicate scenario, as bytes. -/
def dupStr : Str := [100, 117, 112]

/-- The table after inserting "dup" twice into the fresh table. -/
def dupT1 : Table := (tableInsert (tableInsert initTable dupStr).1 dupStr).1

/-- Table `dupT1` after one removal of "dup". -/
def dupT2 : Table := (tableRemove dupT1 dupStr).1

/-! ### Theorems -/

theorem hashStep_eq_ref (h c : Nat) : hashStep h c = hashStepRef h c := by
  unfold hashStep hashStepRef
  rw [Nat.shiftLeft_eq, Nat.mod_add_mod, Nat.add_assoc, Nat.mod_add_mod]
  congr 1
  ring

theorem hashLoop_eq_ref (s : List Nat) : ∀ h : Nat, hashLoop h s = s.foldl hashStepRef h := by
  induction s with
  | nil => intro h; rfl
  | cons c cs ih =>
    intro h
    simp only [hashLoop, List.foldl_cons, hashStep_eq_ref]
    exact ih _

/-- C2: `hash` agrees with the reference djb2 definition written from the
spec (seed 5381, `accumulator*33 + byte` wrapping modulo `2^64`, reduced
modulo the table size 5), and its result is always a valid bucket index.
As a pure Lean function of the key bytes alone, it is deterministic by
construction. -/
theorem c2_hash_djb2 (s : Str) :
    HashTable.hash s = hashRef s ∧ HashTable.hash s < TABLE_SIZE := by
  constructor
  · unfold HashTable.hash hashRef
    rw [hashLoop_eq_ref]
  · exact Nat.mod_lt _ (by decide)

/-- C6: inserting the reserved sentinel marker string is rejected, both at
list level and at table level, and the structure is returned unchanged. -/
theorem c6_insert_sentinel_rejected (l : LState) (t : Table) :
    insert_entry l SENTINEL = (l, false) ∧ tableInsert t SENTINEL = (t, false) := by
  constructor
  · simp [insert_entry]
  · unfold tableInsert
    simp [insert_entry, Function.update_eq_self]

theorem scan_eq_none {v : Str} : ∀ {l : List Str}, scan v l = none ↔ v ∉ l := by
  intro l
  induction l with
  | nil => simp [scan]
  | cons x xs ih =>
    by_cases hx : x = v
    · simp [scan, hx]
    · simp only [scan, if_neg hx, Option.map_eq_none', ih, List.mem_cons]
      constructor
      · intro h hmem
        rcases hmem with hv | hmem
        · exact hx hv.symm
        · exact h hmem
      · intro h hmem
        exact h (Or.inr hmem)

theorem scan_of_mem {v : Str} : ∀ {l : List Str}, v ∈ l →
    ∃ j, scan v l = some j ∧ l.getD j SENTINEL = v := by
  intro l
  induction l with
  | nil => intro h; cases h
  | cons x xs ih =>
    intro h
    by_cases hx : x = v
    · exact ⟨0, by simp [scan, hx], by simp [hx]⟩
    · have hmem : v ∈ xs := by
        rcases List.mem_cons.1 h with hv | hmem
        · exact absurd hv.symm hx
        · exact hmem
      obtain ⟨j, hj, hval⟩ := ih hmem
      exact ⟨j + 1, by simp [scan, hx, hj], by simpa using hval⟩

theorem scan_getD {v : Str} : ∀ {l : List Str} {j : Nat}, scan v l = some j →
    l.getD j SENTINEL = v := by
  intro l
  induction l with
  | nil => intro j h; cases h
  | cons x xs ih =>
    intro j h
    by_cases hx : x = v
    · have hj : j = 0 := by
        simp [scan, hx] at h
        omega
      subst hj
      simpa using hx
    · simp only [scan, if_neg hx, Option.map_eq_some'] at h
      obtain ⟨j', hj', hjeq⟩ := h
      subst hjeq
      simpa using ih hj'

theorem scan_erase_count {v : Str} : ∀ {l : List Str} {j : Nat}, scan v l = some j →
    List.count v (l.eraseIdx j) + 1 = List.count v l := by
  intro l
  induction l with
  | nil => intro j h; cases h
  | cons x xs ih =>
    intro j h
    by_cases hx : x = v
    · have hj : j = 0 := by
        simp [scan, hx] at h
        omega
      subst hj
      simp [List.eraseIdx_cons_zero, hx, List.count_cons_self]
    · simp only [scan, if_neg hx, Option.map_eq_some'] at h
      obtain ⟨j', hj', hjeq⟩ := h
      subst hjeq
      have hrec := ih hj'
      have hxv : ¬v = x := fun hv => hx hv.symm
      simp only [List.eraseIdx_cons_succ, List.count_cons, beq_iff_eq, if_neg hxv]
      omega

/-- How one table-level insertion changes an arbitrary bucket: the hashed
bucket of a non-sentinel key gains that key at the front of its tail, every
other bucket (and the whole table on a sentinel insert) is untouched. -/
theorem tableInsert_bucket (t : Table) (k' : Str) (i : Fin TABLE_SIZE) :
    (tableInsert t k').1 i =
      if k' ≠ SENTINEL ∧ i = hashIdx k' then ⟨(t i).head, k' :: (t i).tail⟩ else t i := by
  have hup : (tableInsert t k').1 i =
      if i = hashIdx k' then (insert_entry (t (hashIdx k')) k').1 else t i :=
    Function.update_apply t (hashIdx k') (insert_entry (t (hashIdx k')) k').1 i
  rw [hup]
  by_cases hk' : k' = SENTINEL
  · rw [if_neg (show ¬(k' ≠ SENTINEL ∧ i = hashIdx k') from by simp [hk'])]
    split_ifs with h
    · rw [h]
      simp [insert_entry, hk']
    · rfl
  · by_cases hi : i = hashIdx k'
    · rw [if_pos hi, if_pos ⟨hk', hi⟩, hi]
      simp [insert_entry, hk']
    · rw [if_neg hi, if_neg (fun hc => hi hc.2)]

/-- C1: after any sequence of table-level insertions from the fresh table,
a find for any successfully inserted key returns a node whose stored value
is string-equal to that key. -/
theorem c1_insert_then_find (ks : List Str) (k : Str)
    (hmem : k ∈ ks) (hk : k ≠ SENTINEL) :
    ∃ j, tableFind (insertSeq ks) k = some j ∧
      valueAt (insertSeq ks (hashIdx k)) j = k := by
  have step : ∀ (ks' : List Str) (t : Table),
      (k ∈ (t (hashIdx k)).tail ∨ k ∈ ks') →
      k ∈ ((ks'.foldl (fun t k => (tableInsert t k).1) t) (hashIdx k)).tail := by
    intro ks'
    induction ks' with
    | nil =>
      intro t h
      rcases h with h | h
      · exact h
      · cases h
    | cons k' ks' ih =>
      intro t h
      simp only [List.foldl_cons]
      rcases h with h | h
      · apply ih
        left
        rw [tableInsert_bucket]
        split_ifs with h1
        · exact List.mem_cons_of_mem _ h
        · exact h
      · rcases List.mem_cons.1 h with rfl | h
        · apply ih
          left
          rw [tableInsert_bucket]
          rw [if_pos ⟨hk, rfl⟩]
          exact List.mem_cons_self _ _
        · exact ih _ (Or.inr h)
  have hmem' : k ∈ (insertSeq ks (hashIdx k)).tail := step ks initTable (Or.inr hmem)
  have hvals : k ∈ (insertSeq ks (hashIdx k)).vals := List.mem_cons_of_mem _ hmem'
  obtain ⟨j, hj, hval⟩ := scan_of_mem hvals
  exact ⟨j, by simpa [tableFind, find_entry, hk] using hj, hval⟩

theorem c1_witness :
    ∃ j, tableFind (insertSeq [[97]]) [97] = some j ∧
      valueAt (insertSeq [[97]] (hashIdx [97])) j = [97] :=
  c1_insert_then_find [[97]] [97] (by decide) (by decide)

theorem find_entry_cons_sentinel {l : LState} {k : Str}
    (hhead : l.head = SENTINEL) (hk : k ≠ SENTINEL) :
    find_entry l k = (scan k l.tail).map (· + 1) := by
  unfold find_entry
  rw [if_neg hk]
  show scan k (l.head :: l.tail) = _
  rw [hhead]
  simp only [scan, if_neg (fun h : SENTINEL = k => hk h.symm)]

theorem tableRemove_found (t : Table) (k : Str) (j' : Nat)
    (hhead : (t (hashIdx k)).head = SENTINEL) (hk : k ≠ SENTINEL)
    (hscan : scan k (t (hashIdx k)).tail = some j') :
    (tableRemove t k).2 = true ∧
    (tableRemove t k).1 =
      Function.update t (hashIdx k)
        ⟨(t (hashIdx k)).head, (t (hashIdx k)).tail.eraseIdx j'⟩ := by
  have hfind : find_entry (t (hashIdx k)) k = some (j' + 1) := by
    rw [find_entry_cons_sentinel hhead hk, hscan]
    rfl
  have hval : (t (hashIdx k)).tail.getD j' SENTINEL = k := scan_getD hscan
  have hcond : (t (hashIdx k)).vals.getD (j' + 1) SENTINEL = k := by
    simpa [LState.vals, List.getD_cons_succ] using hval
  have hrem : remove_entry (t (hashIdx k)) (j' + 1) =
      (⟨(t (hashIdx k)).head, (t (hashIdx k)).tail.eraseIdx j'⟩, true) := by
    unfold remove_entry
    rw [hcond, if_neg hk]
  constructor
  · unfold tableRemove
    rw [hfind]
    simp [hrem]
  · unfold tableRemove
    rw [hfind]
    simp [hrem]

theorem tableRemove_cases (t : Table) (k : Str)
    (hhead : (t (hashIdx k)).head = SENTINEL) :
    (tableRemove t k).1 = t ∨
    ∃ j', scan k (t (hashIdx k)).tail = some j' ∧ k ≠ SENTINEL ∧
      (tableRemove t k).1 =
        Function.update t (hashIdx k)
          ⟨(t (hashIdx k)).head, (t (hashIdx k)).tail.eraseIdx j'⟩ := by
  by_cases hk : k = SENTINEL
  · left
    unfold tableRemove
    have hfind : find_entry (t (hashIdx k)) k = none := by
      unfold find_entry
      rw [if_pos hk]
    rw [hfind]
  · cases hscan : scan k (t (hashIdx k)).tail with
    | none =>
      left
      unfold tableRemove
      have hfind : find_entry (t (hashIdx k)) k = none := by
        rw [find_entry_cons_sentinel hhead hk, hscan]
        rfl
      rw [hfind]
    | some j' =>
      right
      exact ⟨j', rfl, hk, (tableRemove_found t k j' hhead hk hscan).2⟩

/-- The structural invariant of every reachable table: each bucket starts
with the sentinel node, holds the sentinel marker nowhere else, and stores
only keys hashing to its own index. -/
def TableInv (t : Table) : Prop :=
  ∀ i, (t i).head = SENTINEL ∧ SENTINEL ∉ (t i).tail ∧ ∀ v ∈ (t i).tail, hashIdx v = i

theorem reach_inv {t : Table} (h : Reach t) : TableInv t := by
  induction h with
  | init =>
    intro i
    exact ⟨rfl, List.not_mem_nil _, fun v hv => absurd hv (List.not_mem_nil v)⟩
  | insert t k ht ih =>
    intro i
    rw [tableInsert_bucket]
    split_ifs with hc
    · obtain ⟨hk, hi⟩ := hc
      obtain ⟨h1, h2, h3⟩ := ih i
      refine ⟨h1, ?_, ?_⟩
      · intro hs
        rcases List.mem_cons.1 hs with hs | hs
        · exact hk hs.symm
        · exact h2 hs
      · intro v hv
        rcases List.mem_cons.1 hv with hv | hv
        · rw [hv, ← hi]
        · exact h3 v hv
    · exact ih i
  | remove t k ht ih =>
    intro i
    rcases tableRemove_cases t k (ih (hashIdx k)).1 with hEq | ⟨j', hscan, hk, hEq⟩
    · rw [hEq]
      exact ih i
    · rw [hEq, Function.update_apply]
      split_ifs with hi

      · obtain ⟨h1, h2, h3⟩ := ih (hashIdx k)
        refine ⟨h1, ?_, ?_⟩
        · intro hs
          exact h2 (List.eraseIdx_subset _ _ hs)
        · intro v hv
          rw [hi]
          exact h3 v (List.eraseIdx_subset _ _ hv)
      · exact ih i

/-- C7: removing a key that occurs in no bucket reports failure and
returns the table unchanged, every bucket identical. -/
theorem c7_remove_absent (t : Table) (k : Str)
    (habs : ∀ i : Fin TABLE_SIZE, k ∉ (t i).vals) :
    tableRemove t k = (t, false) := by
  unfold tableRemove
  have hfind : find_entry (t (hashIdx k)) k = none := by
    unfold find_entry
    split_ifs with hs
    · rfl
    · exact scan_eq_none.2 (habs _)
  rw [hfind]

/-- C4: in every reachable table state, each bucket holds exactly one node
with the sentinel marker, it is the first node of the bucket, and
`remove_entry` on that node fails and leaves the bucket unchanged. -/
theorem c4_sentinel_invariant (t : Table) (h : Reach t) (i : Fin TABLE_SIZE) :
    List.count SENTINEL (t i).vals = 1 ∧ (t i).head = SENTINEL ∧
    remove_entry (t i) 0 = (t i, false) := by
  obtain ⟨h1, h2, h3⟩ := reach_inv h i
  refine ⟨?_, h1, ?_⟩
  · simp [LState.vals, List.count_cons, h1, List.count_eq_zero.2 h2]
  · unfold remove_entry
    have hc : (t i).vals.getD 0 SENTINEL = SENTINEL := by
      simp [LState.vals, h1]
    rw [hc, if_pos rfl]

/-- C8: a table-level insert or remove of key `k` can change only the
bucket at index `hash k`; every other bucket is untouched; and in every
reachable state each stored key lives only in the bucket of its own hash
index. -/
theorem c8_bucket_frame (t : Table) (k : Str) (j : Fin TABLE_SIZE)
    (h : Reach t) (hj : j ≠ hashIdx k) :
    ((tableInsert t k).1 j = t j ∧ (tableRemove t k).1 j = t j) ∧
    ∀ i, ∀ v ∈ (t i).tail, hashIdx v = i := by
  refine ⟨⟨?_, ?_⟩, ?_⟩
  · rw [tableInsert_bucket, if_neg (fun hc => hj hc.2)]
  · rcases tableRemove_cases t k (reach_inv h (hashIdx k)).1 with hEq | ⟨j', _, _, hEq⟩
    · rw [hEq]
    · rw [hEq, Function.update_apply, if_neg hj]
  · intro i v hv
    exact (reach_inv h i).2.2 v hv

/-- C3: removing a key `k` that is present in its bucket succeeds; a
subsequent find for `k` fails when no duplicate of `k` remains, and when a
duplicate remains the find returns a node whose stored value is `k`. -/
theorem c3_remove_then_find (t : Table) (k : Str) (h : Reach t)
    (hk : k ≠ SENTINEL) (hmem : k ∈ (t (hashIdx k)).tail) :
    (tableRemove t k).2 = true ∧
    (List.count k (t (hashIdx k)).tail = 1 →
      tableFind (tableRemove t k).1 k = none) ∧
    (2 ≤ List.count k (t (hashIdx k)).tail →
      ∃ j, tableFind (tableRemove t k).1 k = some j ∧
        valueAt ((tableRemove t k).1 (hashIdx k)) j = k) := by
  have hhead := (reach_inv h (hashIdx k)).1
  obtain ⟨j0, hscan0, hval0⟩ := scan_of_mem hmem
  obtain ⟨hsucc, hEq⟩ := tableRemove_found t k j0 hhead hk hscan0
  have hbucket : (tableRemove t k).1 (hashIdx k) =
      ⟨(t (hashIdx k)).head, (t (hashIdx k)).tail.eraseIdx j0⟩ := by
    rw [hEq, Function.update_same]
  have hcount := scan_erase_count hscan0
  have hhead2 : ((tableRemove t k).1 (hashIdx k)).head = SENTINEL := by
    rw [hbucket]
    exact hhead
  have htail2 : ((tableRemove t k).1 (hashIdx k)).tail =
      (t (hashIdx k)).tail.eraseIdx j0 := by
    rw [hbucket]
  refine ⟨hsucc, ?_, ?_⟩
  · intro h1
    have h0 : List.count k ((t (hashIdx k)).tail.eraseIdx j0) = 0 := by omega
    have hnot : k ∉ (t (hashIdx k)).tail.eraseIdx j0 := List.count_eq_zero.1 h0
    unfold tableFind
    rw [find_entry_cons_sentinel hhead2 hk, htail2, scan_eq_none.2 hnot]
    rfl
  · intro h2
    have h1 : 1 ≤ List.count k ((t (hashIdx k)).tail.eraseIdx j0) := by omega
    have hmem2 : k ∈ (t (hashIdx k)).tail.eraseIdx j0 := by
      by_contra hcon
      rw [List.count_eq_zero.2 hcon] at h1
      omega
    obtain ⟨j2, hscan2, hval2⟩ := scan_of_mem hmem2
    refine ⟨j2 + 1, ?_, ?_⟩
    · unfold tableFind
      rw [find_entry_cons_sentinel hhead2 hk, htail2, hscan2]
      rfl
    · unfold valueAt LState.vals
      rw [hbucket]
      simpa [List.getD_cons_succ] using hval2

theorem c3_witness :
    (∃ j, tableFind dupT2 dupStr = some j ∧
      valueAt (dupT2 (hashIdx dupStr)) j = dupStr) ∧
    tableFind (tableRemove dupT2 dupStr).1 dupStr = none := by
  have h1 : Reach dupT1 :=
    Reach.insert _ dupStr (Reach.insert _ dupStr Reach.init)
  have h2 : Reach dupT2 := Reach.remove dupT1 dupStr h1
  exact ⟨(c3_remove_then_find dupT1 dupStr h1 (by decide) (by decide)).2.2 (by decide),
         (c3_remove_then_find dupT2 dupStr h2 (by decide) (by decide)).2.1 (by decide)⟩

theorem c4_witness :
    List.count SENTINEL (initTable ⟨0, by decide⟩).vals = 1 ∧
    (initTable ⟨0, by decide⟩).head = SENTINEL ∧
    remove_entry (initTable ⟨0, by decide⟩) 0 = (initTable ⟨0, by decide⟩, false) :=
  c4_sentinel_invariant initTable Reach.init ⟨0, by decide⟩

theorem c8_witness :
    (((tableInsert initTable [97]).1 ⟨1, by decide⟩ = initTable ⟨1, by decide⟩ ∧
      (tableRemove initTable [97]).1 ⟨1, by decide⟩ = initTable ⟨1, by decide⟩)) ∧
    ∀ i, ∀ v ∈ (initTable i).tail, hashIdx v = i :=
  c8_bucket_frame initTable [97] ⟨1, by decide⟩ Reach.init (by decide)

theorem c7_witness : tableRemove initTable [97] = (initTable, false) :=
  c7_remove_absent initTable [97] (by decide)

theorem traverse_succ (h : Heap) (n : Nat) (a : Nat) :
    traverse h (n + 1) (some a) =
      match h a with
      | none => []
      | some nd => nd.value :: traverse h n nd.next := rfl

theorem addrSeq_succ (h : Heap) (n : Nat) (a : Nat) :
    addrSeq h (n + 1) (some a) =
      match h a with
      | none => [a]
      | some nd => a :: addrSeq h n nd.next := rfl

theorem traverse_congr {h h2 : Heap} : ∀ {n : Nat} {p : Option Nat},
    (∀ a ∈ addrSeq h n p, view (h2 a) = view (h a)) →
    traverse h2 n p = traverse h n p := by
  intro n
  induction n with
  | zero => intro p _; rfl
  | succ n ih =>
    intro p hag
    match p with
    | none => rfl
    | some a =>
      cases hha : h a with
      | none =>
        have hmem : a ∈ addrSeq h (n + 1) (some a) := by
          simp [addrSeq_succ, hha]
        have hv := hag a hmem
        rw [hha] at hv
        simp only [view, Option.map_none', Option.map_eq_none'] at hv
        simp [traverse_succ, hha, hv]
      | some nd =>
        have hmem : a ∈ addrSeq h (n + 1) (some a) := by
          simp [addrSeq_succ, hha]
        have hv := hag a hmem
        rw [hha] at hv
        cases hcc : h2 a with
        | none => rw [hcc] at hv; cases hv
        | some nd2 =>
          rw [hcc] at hv
          simp only [view, Option.map_some', Option.some.injEq, Prod.mk.injEq] at hv
          obtain ⟨hval, hnext⟩ := hv
          have htail : traverse h2 n nd.next = traverse h n nd.next := by
            apply ih
            intro b hb
            apply hag
            simp [addrSeq_succ, hha, hb]
          simp [traverse_succ, hha, hcc, hval, hnext, htail]

theorem traverse_none (h : Heap) : ∀ n, traverse h n none = [] := by
  intro n
  cases n <;> rfl

/-- C5: a successful heap-level `insert_entry` links the new node as the
immediate successor of the list head: the new node holds a copy of the
value with `prev = head` and `next = ` head's old successor, the head's
`next` now points at the new node, the displaced successor's `prev` link
(when a successor exists) is redirected to the new node, and the value
sequence read from the head is the old sequence with the value inserted
right after the head value. -/
theorem c5_insert_links (h : Heap) (list_head fresh n : Nat) (v : Str) (hd : HNode)
    (hhead : h list_head = some hd)
    (hfresh : h fresh = none)
    (hv : v ≠ SENTINEL)
    (hsucc : ∀ nx, hd.next = some nx → h nx ≠ none ∧ nx ≠ list_head)
    (hacyc : list_head ∉ addrSeq h n hd.next)
    (hfr : fresh ∉ addrSeq h n hd.next) :
    (insert_entry_heap h list_head fresh v).2 = true ∧
    (insert_entry_heap h list_head fresh v).1 fresh = some ⟨v, some list_head, hd.next⟩ ∧
    (insert_entry_heap h list_head fresh v).1 list_head = some ⟨hd.value, hd.prev, some fresh⟩ ∧
    (∀ nx nd, hd.next = some nx → h nx = some nd →
      (insert_entry_heap h list_head fresh v).1 nx = some ⟨nd.value, some fresh, nd.next⟩) ∧
    traverse (insert_entry_heap h list_head fresh v).1 (n + 2) (some list_head) =
      hd.value :: v :: traverse h n hd.next := by
  have hne : fresh ≠ list_head := by
    intro e
    rw [e, hhead] at hfresh
    cases hfresh
  have hlf : ¬list_head = fresh := fun e => hne e.symm
  have h2true : (insert_entry_heap h list_head fresh v).2 = true := by
    simp only [insert_entry_heap, if_neg hv, hhead]
  cases hnx : hd.next with
  | none =>
    have hRfresh : (insert_entry_heap h list_head fresh v).1 fresh =
        some ⟨v, some list_head, none⟩ := by
      simp [insert_entry_heap, if_neg hv, hhead, hnx, hne]
    have hRhead : (insert_entry_heap h list_head fresh v).1 list_head =
        some ⟨hd.value, hd.prev, some fresh⟩ := by
      simp [insert_entry_heap, if_neg hv, hhead, hnx, hlf]
    refine ⟨h2true, hRfresh, hRhead, ?_, ?_⟩
    · intro nx nd e1 _
      cases e1
    · have t1 : traverse (insert_entry_heap h list_head fresh v).1 (n + 2) (some list_head) =
          hd.value :: traverse (insert_entry_heap h list_head fresh v).1 (n + 1) (some fresh) := by
        rw [traverse_succ, hRhead]
      have t2 : traverse (insert_entry_heap h list_head fresh v).1 (n + 1) (some fresh) =
          v :: traverse (insert_entry_heap h list_head fresh v).1 n none := by
        rw [traverse_succ, hRfresh]
      rw [t1, t2, traverse_none, traverse_none]
  | some nx0 =>
    obtain ⟨halloc, hnl⟩ := hsucc nx0 hnx
    obtain ⟨nd0, hnd0⟩ : ∃ nd0, h nx0 = some nd0 := by
      cases hcc : h nx0 with
      | none => exact absurd hcc halloc
      | some nd0 => exact ⟨nd0, rfl⟩
    have hnf : ¬nx0 = fresh := by
      intro e
      rw [e, hfresh] at hnd0
      cases hnd0
    have hfn : ¬fresh = nx0 := fun e => hnf e.symm
    have hln : ¬list_head = nx0 := fun e => hnl e.symm
    have hRfresh : (insert_entry_heap h list_head fresh v).1 fresh =
        some ⟨v, some list_head, some nx0⟩ := by
      simp [insert_entry_heap, if_neg hv, hhead, hnx, hne, hfn]
    have hRhead : (insert_entry_heap h list_head fresh v).1 list_head =
        some ⟨hd.value, hd.prev, some fresh⟩ := by
      simp [insert_entry_heap, if_neg hv, hhead, hnx, hlf, hln]
    have hRnx : (insert_entry_heap h list_head fresh v).1 nx0 =
        some ⟨nd0.value, some fresh, nd0.next⟩ := by
      simp [insert_entry_heap, if_neg hv, hhead, hnx, hnl, hnf, hnd0]
    refine ⟨h2true, hRfresh, hRhead, ?_, ?_⟩
    · intro nx nd e1 e2
      injection e1 with e1
      subst e1
      rw [hnd0] at e2
      injection e2 with e2
      subst e2
      exact hRnx
    · have t1 : traverse (insert_entry_heap h list_head fresh v).1 (n + 2) (some list_head) =
          hd.value :: traverse (insert_entry_heap h list_head fresh v).1 (n + 1) (some fresh) := by
        rw [traverse_succ, hRhead]
      have t2 : traverse (insert_entry_heap h list_head fresh v).1 (n + 1) (some fresh) =
          v :: traverse (insert_entry_heap h list_head fresh v).1 n (some nx0) := by
        rw [traverse_succ, hRfresh]
      have htr : traverse (insert_entry_heap h list_head fresh v).1 n (some nx0) =
          traverse h n (some nx0) := by
        apply traverse_congr
        intro a ha
        rw [hnx] at hacyc hfr
        have hal : ¬a = list_head := fun e => hacyc (e ▸ ha)
        have haf : ¬a = fresh := fun e => hfr (e ▸ ha)
        by_cases han : a = nx0
        · subst han
          rw [hRnx, hnd0]
          rfl
        · have hstay : (insert_entry_heap h list_head fresh v).1 a = h a := by
            simp [insert_entry_heap, if_neg hv, hhead, hnx, hal, haf, han]
          rw [hstay]
      rw [t1, t2, htr]

theorem c5_witness :
    (insert_entry_heap exHeap 0 1 [97]).2 = true ∧
    (insert_entry_heap exHeap 0 1 [97]).1 1 = some ⟨[97], some 0, none⟩ ∧
    (insert_entry_heap exHeap 0 1 [97]).1 0 = some ⟨SENTINEL, none, some 1⟩ ∧
    (∀ nx nd, (none : Option Nat) = some nx → exHeap nx = some nd →
      (insert_entry_heap exHeap 0 1 [97]).1 nx = some ⟨nd.value, some 1, nd.next⟩) ∧
    traverse (insert_entry_heap exHeap 0 1 [97]).1 2 (some 0) =
      SENTINEL :: [97] :: traverse exHeap 0 none :=
  c5_insert_links exHeap 0 1 0 [97] ⟨SENTINEL, none, none⟩ (by decide) (by decide)
    (by decide) (fun nx hx => nomatch hx) (by decide) (by decide)

/-- C9, evaluated at a concrete failing input: in src/doubly-linked-list.c
the statements `entry = NULL; free(entry);` null the local pointer before
the call to `free`, so removing the (non-sentinel) node holding `5` from
the list `sentinel -> 5` reports success and splices the node out, yet the
call releases no heap address at all and the removed node remains
allocated — the node is never released, contradicting the
release-exactly-once contract.  (src/hash_table.c's `remove_entry` frees
`entry->value` and `entry` in the correct order; only the plain
doubly-linked-list variant has this slip.) -/
theorem c9_dll_remove_no_release :
    (remove_entry_dll exDHeap 1).2.1 = true ∧
    (remove_entry_dll exDHeap 1).2.2 = [] ∧
    (remove_entry_dll exDHeap 1).1 1 = some ⟨5, some 0, none⟩ := by
  decide

theorem get_alphabetical_index_nonneg {c : Nat} (hc : isAlphaByte c = true) :
    ¬get_alphabetical_index c < 0 := by
  simp only [get_alphabetical_index, if_pos hc]
  exact Int.not_lt.mpr (Int.natCast_nonneg _)

theorem get_alphabetical_index_neg {c : Nat} (hc : isAlphaByte c = false) :
    get_alphabetical_index c < 0 := by
  simp [get_alphabetical_index, hc]

theorem get_alphabetical_index_lower (c : Nat) :
    get_alphabetical_index (lowerByte c) = get_alphabetical_index c := by
  cases hup : isUpperByte c with
  | false => simp [lowerByte, hup]
  | true =>
    have hc : 65 ≤ c ∧ c ≤ 90 := by
      simpa [isUpperByte] using hup
    have halpha : isAlphaByte c = true := by
      simp only [isAlphaByte, Bool.or_eq_true, Bool.and_eq_true, decide_eq_true_eq]
      omega
    have halpha2 : isAlphaByte (c + 32) = true := by
      simp only [isAlphaByte, Bool.or_eq_true, Bool.and_eq_true, decide_eq_true_eq]
      omega
    have hup2 : isUpperByte (c + 32) = false := by
      apply Bool.eq_false_iff.mpr
      intro hcon
      simp only [isUpperByte, Bool.and_eq_true, decide_eq_true_eq] at hcon
      omega
    simp [lowerByte, hup, get_alphabetical_index, halpha, halpha2, hup2]

theorem insert_entry_lower (v : List Nat) : ∀ t : Trie,
    t.insert_entry (lowerStr v) = t.insert_entry v := by
  induction v with
  | nil => intro t; rfl
  | cons c rest ih =>
    intro t
    show Trie.insert_entry t (lowerByte c :: lowerStr rest) = _
    simp only [Trie.insert_entry, get_alphabetical_index_lower, ih]

theorem find_entry_lower (v : List Nat) : ∀ t : Trie,
    t.find_entry (lowerStr v) = t.find_entry v := by
  induction v with
  | nil => intro t; rfl
  | cons c rest ih =>
    intro t
    show Trie.find_entry t (lowerByte c :: lowerStr rest) = _
    simp only [Trie.find_entry, get_alphabetical_index_lower, ih]

theorem insert_entry_all_alpha (v : List Nat) : ∀ t : Trie,
    v.all isAlphaByte = true → (t.insert_entry v).2 = true := by
  induction v with
  | nil => intro t _; rfl
  | cons c rest ih =>
    intro t hall
    rw [List.all_cons, Bool.and_eq_true] at hall
    have hidx := get_alphabetical_index_nonneg hall.1
    simp only [Trie.insert_entry, if_neg hidx]
    exact ih _ hall.2

theorem find_insert_all_alpha (v : List Nat) : ∀ t : Trie,
    v.all isAlphaByte = true → (t.insert_entry v).1.find_entry v ≠ none := by
  induction v with
  | nil =>
    intro t _
    show Trie.find_entry (.node true t.paths) [] ≠ none
    simp [Trie.find_entry, Trie.dataFlag]
  | cons c rest ih =>
    intro t hall
    rw [List.all_cons, Bool.and_eq_true] at hall
    have hidx := get_alphabetical_index_nonneg hall.1
    simp only [Trie.insert_entry, if_neg hidx]
    simp only [Trie.find_entry, if_neg hidx, Trie.paths]
    rw [Function.update_same]
    exact ih _ hall.2

theorem non_alpha_reject (v : List Nat) : ∀ t : Trie,
    v.all isAlphaByte = false → (t.insert_entry v).2 = false ∧ t.find_entry v = none := by
  induction v with
  | nil => intro t h; cases h
  | cons c rest ih =>
    intro t hall
    cases hc : isAlphaByte c with
    | false =>
      have hidx := get_alphabetical_index_neg hc
      constructor
      · simp only [Trie.insert_entry, if_pos hidx]
      · simp only [Trie.find_entry, if_pos hidx]
    | true =>
      have hrest : rest.all isAlphaByte = false := by
        rw [List.all_cons, hc, Bool.true_and] at hall
        exact hall
      have hidx := get_alphabetical_index_nonneg hc
      constructor
      · simp only [Trie.insert_entry, if_neg hidx]
        exact (ih _ hrest).1
      · simp only [Trie.find_entry, if_neg hidx]
        cases hp : t.paths (get_alphabetical_index c).toNat with
        | none => simp [hp]
        | some sub => simp [hp, (ih sub hrest).2]

/-- C10: the trie's insert and find are case-insensitive.  For a string of
alphabetic bytes, insertion succeeds, inserting the string and inserting
its lowercased form produce identical results, and a subsequent find for
either the string or its lowercased form succeeds.  A string containing a
non-alphabetic byte is rejected: insertion reports failure and find
reports "not found". -/
theorem c10_trie_case_insensitive (t : Trie) (v : List Nat) :
    (v.all isAlphaByte = true →
      (t.insert_entry v).2 = true ∧
      t.insert_entry v = t.insert_entry (lowerStr v) ∧
      (t.insert_entry v).1.find_entry v ≠ none ∧
      (t.insert_entry v).1.find_entry (lowerStr v) ≠ none) ∧
    (v.all isAlphaByte = false →
      (t.insert_entry v).2 = false ∧ t.find_entry v = none) := by
  constructor
  · intro hall
    refine ⟨insert_entry_all_alpha v t hall, (insert_entry_lower v t).symm,
      find_insert_all_alpha v t hall, ?_⟩
    rw [find_entry_lower]
    exact find_insert_all_alpha v t hall
  · intro hall
    exact non_alpha_reject v t hall

theorem c10_witness :
    ((create_trie.insert_entry [97, 66]).2 = true ∧
      create_trie.insert_entry [97, 66] = create_trie.insert_entry (lowerStr [97, 66]) ∧
      (create_trie.insert_entry [97, 66]).1.find_entry [97, 66] ≠ none ∧
      (create_trie.insert_entry [97, 66]).1.find_entry (lowerStr [97, 66]) ≠ none) ∧
    ((create_trie.insert_entry [97, 49]).2 = false ∧
      create_trie.find_entry [97, 49] = none) :=
  ⟨(c10_trie_case_insensitive create_trie [97, 66]).1 (by decide),
   (c10_trie_case_insensitive create_trie [97, 49]).2 (by decide)⟩
